import Mathlib

/-!
A shallow embedding of `src/oaht.h`, a generic open-addressing hash table
with linear probing (map variant, `OAHT_NO_VALUE` not defined,
`OAHT_NO_STORE_HASH` not defined, `OAHT_HEADER` not defined).

Modelling conventions:
* The compile-time macro configuration (`OAHT_KEY_T`, `OAHT_VALUE_T`,
  `OAHT_EMPTY_KEY`, `OAHT_DELETED_KEY`, `OAHT_HASH`) becomes an explicit
  `OahtConfig` record.  `OAHT_KEY_EQUALS` is the default `a == b`, modelled
  by decidable equality on the key type.  The hash value is modelled as the
  unsigned 32-bit pattern the C code masks with (`hash & a->mask` converts
  the `int` hash to `unsigned int`), i.e. a `Nat` below `2 ^ 32`.
* `OAHT_SIZE_T` is `unsigned int`; all counter arithmetic on it is taken
  modulo `2 ^ 32` (`SIZE_T_MOD`) where the C code can wrap.
* Allocation always succeeds (`OAHT_ALLOC` failure and `OAHT_FREE` are not
  modelled); the `OAHT_OOM()` exit path and non-terminating probe loops are
  modelled by `Option`, with `none` meaning "this C call never returns".
* The `while (1)` probe loop of `oaht_lookup_helper` is given fuel
  `a->mask + 1` (the capacity).  This is exact: the probe position sequence
  is periodic with period `capacity` and the table is not mutated during a
  lookup, so if the C loop returns at all it returns within `capacity`
  iterations, and with that much fuel the model returns the same slot.
* The zeroed memory produced by `memset` in `oaht_create_presized` is the
  entry `blankEntry` (hash bits 0, key `OAHT_EMPTY_KEY`, value
  `zeroValue`, the all-zero-bytes value of the value type).
-/

/-- The compile-time configuration of the table: sentinel key values, hash
function (as the unsigned bit pattern used for masking) and the all-zero
value used to model `memset`-initialised memory. -/
structure OahtConfig (κ ν : Type) where
  emptyKey : κ
  deletedKey : κ
  hash : κ → Nat
  zeroValue : ν

/-- `struct oaht_entry`: cached hash, key and value (map variant with
stored hash). -/
structure oaht_entry (κ ν : Type) where
  hash : Nat
  key : κ
  value : ν
deriving DecidableEq, Repr

/-- `struct oaht`: fill counter (used + deleted entries), used counter,
capacity mask, and the in-place entry array modelled as a list. -/
structure oaht (κ ν : Type) where
  fill : Nat
  used : Nat
  mask : Nat
  els : List (oaht_entry κ ν)
deriving DecidableEq, Repr

/-- `OAHT_SIZE_T` is `unsigned int`: arithmetic wraps modulo `2 ^ 32`. -/
def SIZE_T_MOD : Nat := 2 ^ 32

/-- `OAHT_MIN_CAPACITY`, the default minimum capacity. -/
def OAHT_MIN_CAPACITY : Nat := 8

variable {κ ν : Type} [DecidableEq κ] (c : OahtConfig κ ν)

/-- The entry a zeroed slot holds after `memset(a, 0, ...)`:
`OAHT_EMPTY_KEY` (which is byte-zero in the default configuration),
hash field 0, value field all zero bytes. -/
def blankEntry : oaht_entry κ ν :=
  { hash := 0, key := c.emptyKey, value := c.zeroValue }

/-- Key stored at slot `i` (reads of `a->els[i].key`; in-range under the
structural invariant `a.els.length = a.mask + 1`). -/
def keyAt (a : oaht κ ν) (i : Nat) : κ :=
  (a.els.getD i (blankEntry c)).key

/-- The size-computation loop of `oaht_create_presized`:
`while (size < min_size) { min_size *= 2; if (size < OAHT_MIN_CAPACITY) OAHT_OOM(); }`.
The loop is given fuel; 40 units are provably enough for every input
because doubling modulo `2 ^ 32` reaches 0 within 33 steps ever after. -/
def growSize : Nat → Nat → Nat → Option Nat
  | 0, _, _ => none
  | fuel + 1, size, min_size =>
    if size < min_size then
      let m := (min_size * 2) % SIZE_T_MOD
      if size < OAHT_MIN_CAPACITY then none
      else growSize fuel size m
    else some size

/-- `oaht_create_presized`: compute the size via the grow loop, allocate,
zero the memory, set the mask. -/
def oaht_create_presized (min_size : Nat) : Option (oaht κ ν) :=
  match growSize 40 OAHT_MIN_CAPACITY min_size with
  | none => none
  | some size =>
    some { fill := 0, used := 0, mask := size - 1,
           els := List.replicate size (blankEntry c) }

/-- `oaht_create`: create with the minimum initial size. -/
def oaht_create : Option (oaht κ ν) :=
  oaht_create_presized c OAHT_MIN_CAPACITY

/-- `oaht_len`: the number of used entries. -/
def oaht_len (a : oaht κ ν) : Nat :=
  a.used

/-- `oaht_get_hash_of_entry`: with stored hashes this reads `e->hash`. -/
def oaht_get_hash_of_entry (e : oaht_entry κ ν) : Nat :=
  e.hash

/-- The body of the `for (; pos <= a->mask; pos++)` loop of `oaht_iter`,
with `count = a->mask + 1 - pos` iterations remaining.  Returns the pair
(returned cursor, optionally the key/value written through the out
pointers); `(0, none)` is the "no more entries" return. -/
def oaht_iter_loop (a : oaht κ ν) : Nat → Nat → Nat × Option (κ × ν)
  | 0, _ => (0, none)
  | count + 1, pos =>
    let e := a.els.getD pos (blankEntry c)
    if e.key = c.emptyKey ∨ e.key = c.deletedKey then
      oaht_iter_loop a count (pos + 1)
    else ((pos + 1) % SIZE_T_MOD, some (e.key, e.value))

/-- `oaht_iter`: scan from cursor `pos` for the next used entry. -/
def oaht_iter (a : oaht κ ν) (pos : Nat) : Nat × Option (κ × ν) :=
  oaht_iter_loop c a (a.mask + 1 - pos) pos

/-- The `while (1)` probe loop of `oaht_lookup_helper`, with fuel (see the
header comment: fuel `a.mask + 1` is an exact model of the C loop).
`freeslot` is the first DELETED slot seen so far.  The match condition is
the literal C condition
`OAHT_KEY_EQUALS(k,key) || (hash == && !IS_DELETED(k) && OAHT_KEY_EQUALS(k,key))`. -/
def oaht_lookup_loop (a : oaht κ ν) (key : κ) (hsh : Nat) :
    Nat → Nat → Option Nat → Option Nat
  | 0, _, _ => none
  | fuel + 1, pos, freeslot =>
    let e := a.els.getD pos (blankEntry c)
    if e.key = c.emptyKey then some (freeslot.getD pos)
    else if e.key = key ∨ (e.hash = hsh ∧ ¬ e.key = c.deletedKey ∧ e.key = key) then
      some pos
    else
      let fs := if e.key = c.deletedKey ∧ freeslot = none then some pos else freeslot
      oaht_lookup_loop a key hsh fuel ((pos + 1) &&& a.mask) fs

/-- `oaht_lookup_helper`: probe from `hash & a->mask`.  Returns the index
of the entry the C function returns a pointer to; `none` models the C loop
never terminating (possible only when no slot is EMPTY). -/
def oaht_lookup_helper (a : oaht κ ν) (key : κ) (hsh : Nat) : Option Nat :=
  oaht_lookup_loop c a key hsh (a.mask + 1) (hsh &&& a.mask) none

/-- The entry-copying loop of `oaht_resize`: for each index of the old
table in ascending order, skip EMPTY and DELETED slots and copy (memcpy:
hash, key and value) every used entry to the slot the lookup primitive
chooses in the new table, probing by the entry's stored hash. -/
def reinsertLoop (a : oaht κ ν) : List Nat → oaht κ ν → Option (oaht κ ν)
  | [], b => some b
  | i :: is, b =>
    let ea := a.els.getD i (blankEntry c)
    if ea.key = c.emptyKey ∨ ea.key = c.deletedKey then reinsertLoop a is b
    else
      match oaht_lookup_helper c b ea.key (oaht_get_hash_of_entry ea) with
      | none => none
      | some j => reinsertLoop a is { b with els := b.els.set j ea }

/-- `oaht_resize`: create a presized table, preset `used` and `fill` to the
old `used` count, and reinsert every used entry. -/
def oaht_resize (a : oaht κ ν) (min_size : Nat) : Option (oaht κ ν) :=
  match oaht_create_presized c min_size with
  | none => none
  | some b0 =>
    reinsertLoop c a (List.range (a.mask + 1))
      { b0 with used := a.used, fill := a.used }

/-- `oaht_contains`: 1 iff the slot the lookup returns is neither EMPTY nor
DELETED; `none` models a non-terminating lookup. -/
def oaht_contains (a : oaht κ ν) (key : κ) : Option Bool :=
  match oaht_lookup_helper c a key (c.hash key) with
  | none => none
  | some i =>
    let e := a.els.getD i (blankEntry c)
    some (if e.key = c.emptyKey ∨ e.key = c.deletedKey then false else true)

/-- `oaht_get`: the value of the entry the lookup returns, or
`default_value` if that slot is EMPTY or DELETED. -/
def oaht_get (a : oaht κ ν) (key : κ) (default_value : ν) : Option ν :=
  match oaht_lookup_helper c a key (c.hash key) with
  | none => none
  | some i =>
    let e := a.els.getD i (blankEntry c)
    if e.key = c.emptyKey ∨ e.key = c.deletedKey then some default_value
    else some e.value

/-- `oaht_set`: look the key up, bump the counters according to the state
of the returned slot, write hash, key and value, and resize when the table
is at least 2/3 full (counting tombstones). -/
def oaht_set (a : oaht κ ν) (key : κ) (value : ν) : Option (oaht κ ν) :=
  let hsh := c.hash key
  match oaht_lookup_helper c a key hsh with
  | none => none
  | some i =>
    let e := a.els.getD i (blankEntry c)
    let a1 :=
      if e.key = c.emptyKey then
        { a with used := (a.used + 1) % SIZE_T_MOD,
                 fill := (a.fill + 1) % SIZE_T_MOD }
      else if e.key = c.deletedKey then
        { a with used := (a.used + 1) % SIZE_T_MOD }
      else a
    let a2 := { a1 with els := a1.els.set i { hash := hsh, key := key, value := value } }
    if (a2.fill * 3) % SIZE_T_MOD ≥ ((a2.mask + 1) * 2) % SIZE_T_MOD then
      oaht_resize c a2 (((if 50000 < a2.used then 2 else 4) * a2.used) % SIZE_T_MOD)
    else some a2

/-- `oaht_delete`: look the key up; if the returned slot is used, mark its
key DELETED and decrement `used` (a wrapping `unsigned` decrement). -/
def oaht_delete (a : oaht κ ν) (key : κ) : Option (oaht κ ν) :=
  match oaht_lookup_helper c a key (c.hash key) with
  | none => none
  | some i =>
    let e := a.els.getD i (blankEntry c)
    if ¬ e.key = c.emptyKey ∧ ¬ e.key = c.deletedKey then
      some { a with els := a.els.set i { e with key := c.deletedKey },
                    used := (a.used + (SIZE_T_MOD - 1)) % SIZE_T_MOD }
    else some a

/-! ### Specification-side definitions -/

/-- The probe loop as worded by the specification (section 4.1), one rule
per branch: (1) an Empty slot ends the probe, returning the remembered
Tombstone if one was seen, else the Empty slot; (2) an Occupied slot whose
key equals the target is returned; (3) the first Tombstone is remembered
but probing continues; (4) the position advances by `(pos + 1) & mask`.
Fuel as in `oaht_lookup_loop`. -/
def oaht_lookup_spec_loop (a : oaht κ ν) (key : κ) :
    Nat → Nat → Option Nat → Option Nat
  | 0, _, _ => none
  | fuel + 1, pos, tomb =>
    let e := a.els.getD pos (blankEntry c)
    if e.key = c.emptyKey then some (tomb.getD pos)
    else if (¬ e.key = c.emptyKey ∧ ¬ e.key = c.deletedKey) ∧ e.key = key then
      some pos
    else
      let tomb2 := if e.key = c.deletedKey ∧ tomb = none then some pos else tomb
      oaht_lookup_spec_loop a key fuel ((pos + 1) &&& a.mask) tomb2

/-- The lookup contract as worded by the specification: probe from
`hash & capacityMask` by the rules of `oaht_lookup_spec_loop`. -/
def oaht_lookup_spec (a : oaht κ ν) (key : κ) (hsh : Nat) : Option Nat :=
  oaht_lookup_spec_loop c a key (a.mask + 1) (hsh &&& a.mask) none

/-! ### Derived notions used to state the claims -/

/-- A non-sentinel key: neither the EMPTY nor the DELETED reserved value. -/
def nskey (k : κ) : Prop :=
  k ≠ c.emptyKey ∧ k ≠ c.deletedKey

/-- Slot `i` holds a live entry. -/
def occupiedAt (a : oaht κ ν) (i : Nat) : Prop :=
  keyAt c a i ≠ c.emptyKey ∧ keyAt c a i ≠ c.deletedKey

instance (k : κ) : Decidable (nskey c k) := by
  unfold nskey
  infer_instance

instance (a : oaht κ ν) (i : Nat) : Decidable (occupiedAt c a i) := by
  unfold occupiedAt
  infer_instance

/-- Well-formedness of a table: the entry array has `mask + 1` slots, the
capacity is a power of two (of an `unsigned int` size), stored hashes are
the hashes of the stored keys, and every live entry is found at its own
slot by the lookup primitive (the open-addressing integrity invariant). -/
def Wf (a : oaht κ ν) : Prop :=
  a.els.length = a.mask + 1 ∧
  (∃ w, w < 33 ∧ a.mask = 2 ^ w - 1) ∧
  (∀ i, i < a.els.length → occupiedAt c a i →
    (a.els.getD i (blankEntry c)).hash = c.hash (keyAt c a i)) ∧
  (∀ i, i < a.els.length → occupiedAt c a i →
    oaht_lookup_helper c a (keyAt c a i) (c.hash (keyAt c a i)) = some i)

/-- The table maps `k` to `v`: some slot holds exactly the entry that
`oaht_set` writes for `(k, v)`. -/
def hasEntry (a : oaht κ ν) (k : κ) (v : ν) : Prop :=
  ∃ i, i < a.els.length ∧
    a.els.getD i (blankEntry c) = { hash := c.hash k, key := k, value := v }

/-- A mutation: `oaht_set` or `oaht_delete` with its arguments. -/
inductive TableOp (κ ν : Type) where
  | setOp (key : κ) (value : ν)
  | delOp (key : κ)

/-- The key an operation touches. -/
def opKey : TableOp κ ν → κ
  | .setOp k _ => k
  | .delOp k => k

/-- Run one mutation, propagating non-termination / OOM. -/
def applyOp (t : oaht κ ν) : TableOp κ ν → Option (oaht κ ν)
  | .setOp k v => oaht_set c t k v
  | .delOp k => oaht_delete c t k

/-- Run a sequence of mutations, threading the returned handle. -/
def applyOps : oaht κ ν → List (TableOp κ ν) → Option (oaht κ ν)
  | t, [] => some t
  | t, op :: ops =>
    match applyOp c t op with
    | none => none
    | some t1 => applyOps t1 ops

/-- One full iteration pass, exactly as the caller protocol prescribes:
start at cursor 0, stop when the returned cursor is the done sentinel 0,
otherwise collect the entry and continue from the returned cursor. -/
def oaht_iter_pass_loop (a : oaht κ ν) : Nat → Nat → List (κ × ν)
  | 0, _ => []
  | fuel + 1, pos =>
    let r := oaht_iter c a pos
    if r.1 = 0 then []
    else
      match r.2 with
      | none => []
      | some kv => kv :: oaht_iter_pass_loop a fuel r.1

/-- A full iteration pass over the table. -/
def oaht_iter_pass (a : oaht κ ν) : List (κ × ν) :=
  oaht_iter_pass_loop c a (a.mask + 2) 0

/-- An entry the iterator yields (neither sentinel key). -/
def liveEntry (e : oaht_entry κ ν) : Bool :=
  if e.key = c.emptyKey ∨ e.key = c.deletedKey then false else true

/-! ### State-passing forms of the read operations

The C read operations receive a pointer to the table; translating their
bodies statement by statement, every statement is a read, so the table
memory after the call is the table memory before it.  The state-passing
forms return that final table memory alongside the result. -/

/-- `oaht_contains` with the table memory it leaves behind. -/
def oaht_contains_state (a : oaht κ ν) (key : κ) : Option Bool × oaht κ ν :=
  (oaht_contains c a key, a)

/-- `oaht_get` with the table memory it leaves behind. -/
def oaht_get_state (a : oaht κ ν) (key : κ) (default_value : ν) :
    Option ν × oaht κ ν :=
  (oaht_get c a key default_value, a)

/-- `oaht_len` with the table memory it leaves behind. -/
def oaht_len_state (a : oaht κ ν) : Nat × oaht κ ν :=
  (oaht_len a, a)

/-- `oaht_iter` with the table memory it leaves behind. -/
def oaht_iter_state (a : oaht κ ν) (pos : Nat) :
    (Nat × Option (κ × ν)) × oaht κ ν :=
  (oaht_iter c a pos, a)

/-! ### A concrete instantiation (the default `oaht.h` configuration:
`int` keys and values, `OAHT_EMPTY_KEY 0`, `OAHT_DELETED_KEY -1`, the
default hash `(OAHT_HASH_T)key`, whose unsigned bit pattern for the small
non-negative keys used below is `Int.toNat`). -/

/-- The default configuration instantiated at `int` keys and values. -/
def intCfg : OahtConfig Int Int :=
  { emptyKey := 0, deletedKey := -1, hash := Int.toNat, zeroValue := 0 }

/-- Insert keys 1..8 (key `k` mapped to `k + 100`). -/
def opsEight : List (TableOp Int Int) :=
  [.setOp 1 101, .setOp 2 102, .setOp 3 103, .setOp 4 104,
   .setOp 5 105, .setOp 6 106, .setOp 7 107, .setOp 8 108]

/-- The table the code reaches after inserting keys 1..8 from a fresh
table: capacity still 8 and no slot EMPTY. -/
def tFull : oaht Int Int :=
  { fill := 8, used := 8, mask := 7,
    els := [{ hash := 8, key := 8, value := 108 },
            { hash := 1, key := 1, value := 101 },
            { hash := 2, key := 2, value := 102 },
            { hash := 3, key := 3, value := 103 },
            { hash := 4, key := 4, value := 104 },
            { hash := 5, key := 5, value := 105 },
            { hash := 6, key := 6, value := 106 },
            { hash := 7, key := 7, value := 107 }] }

/-- Insert keys 1..7, then delete key 3. -/
def opsSevenDel : List (TableOp Int Int) :=
  [.setOp 1 101, .setOp 2 102, .setOp 3 103, .setOp 4 104,
   .setOp 5 105, .setOp 6 106, .setOp 7 107, .delOp 3]

/-- The table reached by `opsSevenDel`: slot 0 EMPTY, slot 3 a tombstone,
`fill = 7`, `used = 6`. -/
def tSevenDel : oaht Int Int :=
  { fill := 7, used := 6, mask := 7,
    els := [{ hash := 0, key := 0, value := 0 },
            { hash := 1, key := 1, value := 101 },
            { hash := 2, key := 2, value := 102 },
            { hash := 3, key := -1, value := 103 },
            { hash := 4, key := 4, value := 104 },
            { hash := 5, key := 5, value := 105 },
            { hash := 6, key := 6, value := 106 },
            { hash := 7, key := 7, value := 107 }] }

/-- The table `oaht_set tSevenDel 8 108` passes to `oaht_resize`: key 8
written into the only EMPTY slot (slot 0), counters bumped.  It has no
EMPTY slot at all (7 live entries, 1 tombstone). -/
def tBeforeResize : oaht Int Int :=
  { fill := 8, used := 7, mask := 7,
    els := [{ hash := 8, key := 8, value := 108 },
            { hash := 1, key := 1, value := 101 },
            { hash := 2, key := 2, value := 102 },
            { hash := 3, key := -1, value := 103 },
            { hash := 4, key := 4, value := 104 },
            { hash := 5, key := 5, value := 105 },
            { hash := 6, key := 6, value := 106 },
            { hash := 7, key := 7, value := 107 }] }

/-- The table `oaht_resize` builds from `tBeforeResize`: the tombstone is
reclaimed, so slot 3 is EMPTY again. -/
def tAfterResize : oaht Int Int :=
  { fill := 7, used := 7, mask := 7,
    els := [{ hash := 8, key := 8, value := 108 },
            { hash := 1, key := 1, value := 101 },
            { hash := 2, key := 2, value := 102 },
            { hash := 0, key := 0, value := 0 },
            { hash := 4, key := 4, value := 104 },
            { hash := 5, key := 5, value := 105 },
            { hash := 6, key := 6, value := 106 },
            { hash := 7, key := 7, value := 107 }] }

/-- A freshly created table in the `intCfg` configuration. -/
def blank8Int : oaht Int Int :=
  { fill := 0, used := 0, mask := 7, els := List.replicate 8 (blankEntry intCfg) }

/-- `oaht_set blank8Int 5 42`. -/
def tC5a : oaht Int Int :=
  { fill := 1, used := 1, mask := 7,
    els := [{ hash := 0, key := 0, value := 0 },
            { hash := 0, key := 0, value := 0 },
            { hash := 0, key := 0, value := 0 },
            { hash := 0, key := 0, value := 0 },
            { hash := 0, key := 0, value := 0 },
            { hash := 5, key := 5, value := 42 },
            { hash := 0, key := 0, value := 0 },
            { hash := 0, key := 0, value := 0 }] }

/-- `tC5a` after setting key 7 and then deleting it again. -/
def tC5b : oaht Int Int :=
  { fill := 2, used := 1, mask := 7,
    els := [{ hash := 0, key := 0, value := 0 },
            { hash := 0, key := 0, value := 0 },
            { hash := 0, key := 0, value := 0 },
            { hash := 0, key := 0, value := 0 },
            { hash := 0, key := 0, value := 0 },
            { hash := 5, key := 5, value := 42 },
            { hash := 0, key := 0, value := 0 },
            { hash := 7, key := -1, value := 1 }] }

/-- `tFull` after deleting key 3: still no EMPTY slot. -/
def tFullDel : oaht Int Int :=
  { fill := 8, used := 7, mask := 7,
    els := [{ hash := 8, key := 8, value := 108 },
            { hash := 1, key := 1, value := 101 },
            { hash := 2, key := 2, value := 102 },
            { hash := 3, key := -1, value := 103 },
            { hash := 4, key := 4, value := 104 },
            { hash := 5, key := 5, value := 105 },
            { hash := 6, key := 6, value := 106 },
            { hash := 7, key := 7, value := 107 }] }

/-! ### Basic utilities -/

theorem getD_set_self {α : Type} (l : List α) (i : Nat) (x d : α) (h : i < l.length) :
    (l.set i x).getD i d = x := by
  rw [List.getD_eq_getElem?_getD, List.getElem?_set_self h]
  rfl

theorem getD_set_ne {α : Type} (l : List α) (i j : Nat) (x d : α) (h : i ≠ j) :
    (l.set i x).getD j d = l.getD j d := by
  rw [List.getD_eq_getElem?_getD, List.getElem?_set_ne h, ← List.getD_eq_getElem?_getD]

theorem getD_of_length_le {α : Type} (l : List α) (i : Nat) (d : α)
    (h : l.length ≤ i) : l.getD i d = d := by
  rw [List.getD_eq_getElem?_getD, List.getElem?_eq_none h]
  rfl

/-- The C match condition collapses to plain key equality: the first
disjunct subsumes the hash fast-path disjunct. -/
theorem lookup_loop_succ (a : oaht κ ν) (key : κ) (hsh : Nat) (fuel pos : Nat)
    (fs : Option Nat) :
    oaht_lookup_loop c a key hsh (fuel + 1) pos fs =
      if keyAt c a pos = c.emptyKey then some (fs.getD pos)
      else if keyAt c a pos = key then some pos
      else oaht_lookup_loop c a key hsh fuel ((pos + 1) &&& a.mask)
        (if keyAt c a pos = c.deletedKey ∧ fs = none then some pos else fs) := by
  simp only [oaht_lookup_loop, keyAt, List.getD_eq_getElem?_getD]
  by_cases h1 : (a.els[pos]?.getD (blankEntry c)).key = c.emptyKey
  · rw [if_pos h1, if_pos h1]
  · rw [if_neg h1, if_neg h1]
    by_cases h2 : (a.els[pos]?.getD (blankEntry c)).key = key
    · rw [if_pos (Or.inl h2), if_pos h2]
    · rw [if_neg (by rintro (h | ⟨_, _, h⟩) <;> exact h2 h), if_neg h2]

theorem spec_loop_succ (a : oaht κ ν) (key : κ) (fuel pos : Nat)
    (hk : key ≠ c.emptyKey) (hkd : key ≠ c.deletedKey) (fs : Option Nat) :
    oaht_lookup_spec_loop c a key (fuel + 1) pos fs =
      if keyAt c a pos = c.emptyKey then some (fs.getD pos)
      else if keyAt c a pos = key then some pos
      else oaht_lookup_spec_loop c a key fuel ((pos + 1) &&& a.mask)
        (if keyAt c a pos = c.deletedKey ∧ fs = none then some pos else fs) := by
  simp only [oaht_lookup_spec_loop, keyAt, List.getD_eq_getElem?_getD]
  by_cases h1 : (a.els[pos]?.getD (blankEntry c)).key = c.emptyKey
  · rw [if_pos h1, if_pos h1]
  · rw [if_neg h1, if_neg h1]
    by_cases h2 : (a.els[pos]?.getD (blankEntry c)).key = key
    · rw [if_pos ⟨⟨by rw [h2]; exact hk, by rw [h2]; exact hkd⟩, h2⟩, if_pos h2]
    · rw [if_neg (by rintro ⟨_, h⟩; exact h2 h), if_neg h2]

/-- The code probe loop computes what the specification's probe rules
compute, step by step. -/
theorem lookup_loop_eq_spec_loop (a : oaht κ ν) (key : κ) (hsh : Nat)
    (hk : key ≠ c.emptyKey) (hkd : key ≠ c.deletedKey) :
    ∀ fuel pos fs, oaht_lookup_loop c a key hsh fuel pos fs =
      oaht_lookup_spec_loop c a key fuel pos fs := by
  intro fuel
  induction fuel with
  | zero => intro pos fs; rfl
  | succ n ih =>
    intro pos fs
    rw [lookup_loop_succ, spec_loop_succ c a key n pos hk hkd fs, ih]

/-- Any slot the probe loop returns is a match, an EMPTY slot or a
DELETED slot (given that the freeslot argument only ever holds DELETED
slots). -/
theorem lookup_loop_shape (a : oaht κ ν) (key : κ) (hsh : Nat) :
    ∀ fuel pos fs i,
      (∀ j, fs = some j → keyAt c a j = c.deletedKey) →
      oaht_lookup_loop c a key hsh fuel pos fs = some i →
      keyAt c a i = key ∨ keyAt c a i = c.emptyKey ∨ keyAt c a i = c.deletedKey := by
  intro fuel
  induction fuel with
  | zero => intro pos fs i _ h; simp [oaht_lookup_loop] at h
  | succ n ih =>
    intro pos fs i hfs h
    rw [lookup_loop_succ] at h
    by_cases h1 : keyAt c a pos = c.emptyKey
    · rw [if_pos h1] at h
      cases hfsc : fs with
      | none =>
        rw [hfsc] at h
        simp only [Option.getD_none, Option.some.injEq] at h
        rw [← h]
        exact Or.inr (Or.inl h1)
      | some j =>
        rw [hfsc] at h
        simp only [Option.getD_some, Option.some.injEq] at h
        rw [← h]
        exact Or.inr (Or.inr (hfs j hfsc))
    · rw [if_neg h1] at h
      by_cases h2 : keyAt c a pos = key
      · rw [if_pos h2] at h
        simp only [Option.some.injEq] at h
        rw [← h]
        exact Or.inl h2
      · rw [if_neg h2] at h
        refine ih _ _ i ?_ h
        intro j hj
        by_cases hd : keyAt c a pos = c.deletedKey ∧ fs = none
        · rw [if_pos hd] at hj
          simp only [Option.some.injEq] at hj
          rw [← hj]
          exact hd.1
        · rw [if_neg hd] at hj
          exact hfs j hj

/-- The probe loop only returns in-range slots. -/
theorem lookup_loop_le_mask (a : oaht κ ν) (key : κ) (hsh : Nat) :
    ∀ fuel pos fs i, pos ≤ a.mask →
      (∀ j, fs = some j → j ≤ a.mask) →
      oaht_lookup_loop c a key hsh fuel pos fs = some i → i ≤ a.mask := by
  intro fuel
  induction fuel with
  | zero => intro pos fs i _ _ h; simp [oaht_lookup_loop] at h
  | succ n ih =>
    intro pos fs i hpos hfs h
    rw [lookup_loop_succ] at h
    by_cases h1 : keyAt c a pos = c.emptyKey
    · rw [if_pos h1] at h
      cases hfsc : fs with
      | none =>
        rw [hfsc] at h
        simp only [Option.getD_none, Option.some.injEq] at h
        exact h ▸ hpos
      | some j =>
        rw [hfsc] at h
        simp only [Option.getD_some, Option.some.injEq] at h
        exact h ▸ hfs j hfsc
    · rw [if_neg h1] at h
      by_cases h2 : keyAt c a pos = key
      · rw [if_pos h2] at h
        simp only [Option.some.injEq] at h
        exact h ▸ hpos
      · rw [if_neg h2] at h
        refine ih _ _ i Nat.and_le_right ?_ h
        intro j hj
        by_cases hd : keyAt c a pos = c.deletedKey ∧ fs = none
        · rw [if_pos hd] at hj
          simp only [Option.some.injEq] at hj
          exact hj ▸ hpos
        · rw [if_neg hd] at hj
          exact hfs j hj

/-- `oaht_lookup_helper` only returns a match, an EMPTY or a DELETED slot. -/
theorem lookup_helper_shape (a : oaht κ ν) (key : κ) (hsh : Nat) (i : Nat)
    (h : oaht_lookup_helper c a key hsh = some i) :
    keyAt c a i = key ∨ keyAt c a i = c.emptyKey ∨ keyAt c a i = c.deletedKey :=
  lookup_loop_shape c a key hsh _ _ _ i (fun j hj => Option.noConfusion hj) h

/-- `oaht_lookup_helper` only returns in-range slots. -/
theorem lookup_helper_le_mask (a : oaht κ ν) (key : κ) (hsh : Nat) (i : Nat)
    (h : oaht_lookup_helper c a key hsh = some i) : i ≤ a.mask :=
  lookup_loop_le_mask c a key hsh _ _ _ i Nat.and_le_right (fun j hj => Option.noConfusion hj) h

/-- The probe loop reads the table only through its mask and the key
fields of its slots (the hash fast-path of the match condition is
subsumed by the key comparison). -/
theorem lookup_loop_congr (a a2 : oaht κ ν) (key : κ) (hsh : Nat)
    (hmask : a2.mask = a.mask)
    (hkeys : ∀ p, keyAt c a2 p = keyAt c a p) :
    ∀ fuel pos fs,
      oaht_lookup_loop c a2 key hsh fuel pos fs =
        oaht_lookup_loop c a key hsh fuel pos fs := by
  intro fuel
  induction fuel with
  | zero => intro pos fs; rfl
  | succ n ih =>
    intro pos fs
    rw [lookup_loop_succ, lookup_loop_succ, hkeys pos, hmask, ih]

/-- Frame lemma: a successful probe for `key` that ends in a slot whose
key is `key` is not disturbed by changing the table at one position `i0`
whose key was not `key` and still is neither `key` nor EMPTY. -/
theorem lookup_loop_frame (a a2 : oaht κ ν) (key : κ) (hsh : Nat) (i0 : Nat)
    (hmask : a2.mask = a.mask)
    (hkeys : ∀ p, p ≠ i0 → keyAt c a2 p = keyAt c a p)
    (hke : key ≠ c.emptyKey) (hkd : key ≠ c.deletedKey)
    (h0a : keyAt c a i0 ≠ key)
    (h0b : keyAt c a2 i0 ≠ key) (h0e : keyAt c a2 i0 ≠ c.emptyKey) :
    ∀ fuel pos fs fs2 i,
      (∀ j, fs = some j → keyAt c a j = c.deletedKey) →
      oaht_lookup_loop c a key hsh fuel pos fs = some i →
      keyAt c a i = key →
      oaht_lookup_loop c a2 key hsh fuel pos fs2 = some i := by
  intro fuel
  induction fuel with
  | zero => intro pos fs fs2 i _ h _; simp [oaht_lookup_loop] at h
  | succ n ih =>
    intro pos fs fs2 i hfs h hik
    rw [lookup_loop_succ] at h
    rw [lookup_loop_succ]
    by_cases h1 : keyAt c a pos = c.emptyKey
    · rw [if_pos h1] at h
      cases hfsc : fs with
      | none =>
        rw [hfsc] at h
        simp only [Option.getD_none, Option.some.injEq] at h
        rw [← h] at hik
        exact absurd (h1 ▸ hik) (Ne.symm hke)
      | some j =>
        rw [hfsc] at h
        simp only [Option.getD_some, Option.some.injEq] at h
        rw [← h] at hik
        exact absurd ((hfs j hfsc) ▸ hik) (Ne.symm hkd)
    · rw [if_neg h1] at h
      by_cases h2 : keyAt c a pos = key
      · rw [if_pos h2] at h
        simp only [Option.some.injEq] at h
        have hne : pos ≠ i0 := fun hp => h0a (hp ▸ h2)
        rw [hkeys pos hne, if_neg h1, if_pos h2, h]
      · rw [if_neg h2] at h
        have hfs2 : ∀ j,
            (if keyAt c a pos = c.deletedKey ∧ fs = none then some pos else fs) = some j →
            keyAt c a j = c.deletedKey := by
          intro j hj
          by_cases hd : keyAt c a pos = c.deletedKey ∧ fs = none
          · rw [if_pos hd] at hj
            simp only [Option.some.injEq] at hj
            rw [← hj]
            exact hd.1
          · rw [if_neg hd] at hj
            exact hfs j hj
        by_cases hp0 : pos = i0
        · rw [hp0, if_neg h0e, if_neg h0b, hmask]
          exact ih _ _ _ i hfs2 (hp0 ▸ h) hik
        · rw [hkeys pos hp0, if_neg h1, if_neg h2, hmask]
          exact ih _ _ _ i hfs2 h hik

/-- Re-find lemma: after writing `key` into the very slot a probe for
`key` returned, the same probe returns the same slot. -/
theorem lookup_loop_self (a a2 : oaht κ ν) (key : κ) (hsh : Nat) (i : Nat)
    (hmask : a2.mask = a.mask)
    (hkeys : ∀ p, p ≠ i → keyAt c a2 p = keyAt c a p)
    (hki : keyAt c a2 i = key)
    (hke : key ≠ c.emptyKey) (hkd : key ≠ c.deletedKey)
    (hED : c.emptyKey ≠ c.deletedKey) :
    ∀ fuel pos fs,
      (∀ j, fs = some j → keyAt c a j = c.deletedKey) →
      fs ≠ some i →
      oaht_lookup_loop c a key hsh fuel pos fs = some i →
      oaht_lookup_loop c a2 key hsh fuel pos fs = some i := by
  intro fuel
  induction fuel with
  | zero => intro pos fs _ _ h; simp [oaht_lookup_loop] at h
  | succ n ih =>
    intro pos fs hfs hfsi h
    rw [lookup_loop_succ] at h
    rw [lookup_loop_succ]
    by_cases h1 : keyAt c a pos = c.emptyKey
    · rw [if_pos h1] at h
      cases hfsc : fs with
      | none =>
        rw [hfsc] at h
        simp only [Option.getD_none, Option.some.injEq] at h
        rw [h] at h1 ⊢
        rw [if_neg (by rw [hki]; exact hke), if_pos hki]
      | some j =>
        rw [hfsc] at h
        simp only [Option.getD_some, Option.some.injEq] at h
        exact absurd (h ▸ hfsc) hfsi
    · rw [if_neg h1] at h
      by_cases h2 : keyAt c a pos = key
      · rw [if_pos h2] at h
        simp only [Option.some.injEq] at h
        have hk2 : keyAt c a2 pos = key := by
          by_cases hpi : pos = i
          · rw [hpi]; exact hki
          · rw [hkeys pos hpi]; exact h2
        rw [if_neg (by rw [hk2]; exact hke), if_pos hk2, h]
      · rw [if_neg h2] at h
        by_cases hpi : pos = i
        · rw [hpi, if_neg (by rw [hki]; exact hke), if_pos hki]
        · rw [hkeys pos hpi, if_neg h1, if_neg h2, hmask]
          refine ih _ _ ?_ ?_ h
          · intro j hj
            by_cases hd : keyAt c a pos = c.deletedKey ∧ fs = none
            · rw [if_pos hd] at hj
              simp only [Option.some.injEq] at hj
              rw [← hj]
              exact hd.1
            · rw [if_neg hd] at hj
              exact hfs j hj
          · by_cases hd : keyAt c a pos = c.deletedKey ∧ fs = none
            · rw [if_pos hd]
              intro hcontra
              simp only [Option.some.injEq] at hcontra
              exact hpi hcontra
            · rw [if_neg hd]
              exact hfsi

/-- Termination of the probe loop: if some probe position within the fuel
budget holds an EMPTY slot, the loop returns. -/
theorem lookup_loop_isSome (a : oaht κ ν) (key : κ) (hsh : Nat) (w : Nat)
    (hm : a.mask = 2 ^ w - 1) :
    ∀ fuel pos fs, pos ≤ a.mask →
      (∃ d, d < fuel ∧ keyAt c a ((pos + d) % (a.mask + 1)) = c.emptyKey) →
      (oaht_lookup_loop c a key hsh fuel pos fs).isSome := by
  have hcap : a.mask + 1 = 2 ^ w := by
    rw [hm]
    exact Nat.sub_add_cancel Nat.one_le_two_pow
  intro fuel
  induction fuel with
  | zero => intro pos fs _ hd; exact absurd hd (by simp)
  | succ n ih =>
    intro pos fs hpos hd
    obtain ⟨d, hdn, hdE⟩ := hd
    rw [lookup_loop_succ]
    by_cases h1 : keyAt c a pos = c.emptyKey
    · rw [if_pos h1]; rfl
    · rw [if_neg h1]
      by_cases h2 : keyAt c a pos = key
      · rw [if_pos h2]; rfl
      · rw [if_neg h2]
        have hd0 : d ≠ 0 := by
          intro h0
          rw [h0, Nat.add_zero, Nat.mod_eq_of_lt (Nat.lt_succ_of_le hpos)] at hdE
          exact h1 hdE
        obtain ⟨d2, rfl⟩ := Nat.exists_eq_succ_of_ne_zero hd0
        have hstep : (pos + 1) &&& a.mask = (pos + 1) % (a.mask + 1) := by
          conv_rhs => rw [hcap]
          rw [hm, Nat.and_pow_two_sub_one_eq_mod]
        apply ih _ _ Nat.and_le_right
        refine ⟨d2, Nat.lt_of_succ_lt_succ hdn, ?_⟩
        rw [hstep, Nat.mod_add_mod]
        have harg : pos + 1 + d2 = pos + (d2 + 1) := by omega
        rw [harg]
        exact hdE

/-- Termination of `oaht_lookup_helper`: on a power-of-two-capacity table
with at least one EMPTY slot, the probe loop always returns. -/
theorem lookup_helper_isSome (a : oaht κ ν) (key : κ) (hsh : Nat) (w : Nat)
    (hm : a.mask = 2 ^ w - 1)
    (hempty : ∃ j, j ≤ a.mask ∧ keyAt c a j = c.emptyKey) :
    (oaht_lookup_helper c a key hsh).isSome := by
  obtain ⟨j, hj, hjE⟩ := hempty
  have hp0 : hsh &&& a.mask ≤ a.mask := Nat.and_le_right
  unfold oaht_lookup_helper
  apply lookup_loop_isSome c a key hsh w hm _ _ _ hp0
  refine ⟨(a.mask + 1 + j - (hsh &&& a.mask)) % (a.mask + 1),
    Nat.mod_lt _ (Nat.succ_pos a.mask), ?_⟩
  have harg : ((hsh &&& a.mask) +
      (a.mask + 1 + j - (hsh &&& a.mask)) % (a.mask + 1)) % (a.mask + 1) = j := by
    rw [Nat.add_comm (hsh &&& a.mask), Nat.mod_add_mod]
    have h2 : a.mask + 1 + j - (hsh &&& a.mask) + (hsh &&& a.mask) =
        j + (a.mask + 1) := by omega
    rw [h2, Nat.add_mod_right, Nat.mod_eq_of_lt (Nat.lt_succ_of_le hj)]
  rw [harg]
  exact hjE

/-- One step of the size-computation loop. -/
theorem growSize_succ (fuel size m : Nat) :
    growSize (fuel + 1) size m =
      if size < m then
        (if size < OAHT_MIN_CAPACITY then none
         else growSize fuel size ((m * 2) % SIZE_T_MOD))
      else some size := rfl

/-- The loop always exits with `size = OAHT_MIN_CAPACITY`: `size` is never
multiplied (the code doubles `min_size` instead), so the guard
`size < OAHT_MIN_CAPACITY` never fires, and the doubling of `min_size`
modulo `2 ^ 32` reaches 0, at which point the loop condition fails. -/
theorem growSize_exits : ∀ f m, m < SIZE_T_MOD → (m * 2 ^ f) % SIZE_T_MOD = 0 →
    growSize (f + 1) OAHT_MIN_CAPACITY m = some OAHT_MIN_CAPACITY := by
  intro f
  induction f with
  | zero =>
    intro m hlt h0
    rw [pow_zero, Nat.mul_one, Nat.mod_eq_of_lt hlt] at h0
    subst h0
    rfl
  | succ f ih =>
    intro m hlt h0
    rw [growSize_succ]
    by_cases hc : OAHT_MIN_CAPACITY < m
    · rw [if_pos hc, if_neg (by norm_num [OAHT_MIN_CAPACITY])]
      apply ih
      · exact Nat.mod_lt _ (by norm_num [SIZE_T_MOD])
      · rw [Nat.mod_mul_mod]
        have harg : m * 2 * 2 ^ f = m * 2 ^ (f + 1) := by ring
        rw [harg]
        exact h0
    · rw [if_neg hc]

/-- With fuel 40 the loop exits with `OAHT_MIN_CAPACITY` on every input. -/
theorem growSize_forty (m : Nat) :
    growSize 40 OAHT_MIN_CAPACITY m = some OAHT_MIN_CAPACITY := by
  by_cases hc : OAHT_MIN_CAPACITY < m
  · have h39 : (39 : Nat) = 38 + 1 := rfl
    have h40 : growSize 40 OAHT_MIN_CAPACITY m =
        growSize 39 OAHT_MIN_CAPACITY ((m * 2) % SIZE_T_MOD) := by
      rw [show (40 : Nat) = 39 + 1 from rfl, growSize_succ, if_pos hc,
        if_neg (by norm_num [OAHT_MIN_CAPACITY])]
    rw [h40, h39]
    apply growSize_exits
    · exact Nat.mod_lt _ (by norm_num [SIZE_T_MOD])
    · rw [Nat.mod_mul_mod]
      have harg : m * 2 * 2 ^ 38 = m * 2 ^ 7 * 2 ^ 32 := by ring
      rw [harg, SIZE_T_MOD]
      exact Nat.mul_mod_left _ _
  · rw [show (40 : Nat) = 39 + 1 from rfl, growSize_succ, if_neg hc]

/-- Every call of `oaht_create_presized` returns a fresh all-EMPTY table of
capacity `OAHT_MIN_CAPACITY = 8`, whatever the requested minimum size. -/
theorem oaht_create_presized_eq (m : Nat) :
    oaht_create_presized c m =
      some { fill := 0, used := 0, mask := 7,
             els := List.replicate 8 (blankEntry c) } := by
  unfold oaht_create_presized
  rw [growSize_forty]
  rfl

/-- Reading an all-blank (freshly `memset`) table always yields the blank
entry. -/
theorem getD_replicate_blank (n p : Nat) :
    (List.replicate n (blankEntry c)).getD p (blankEntry c) = blankEntry c := by
  rw [List.getD_eq_getElem?_getD, List.getElem?_replicate]
  by_cases h : p < n
  · rw [if_pos h]
    rfl
  · rw [if_neg h]
    rfl

/-- In a well-formed table, two live slots with equal keys are the same
slot (a consequence of the lookup-integrity invariant). -/
theorem Wf_distinct (a : oaht κ ν) (hWf : Wf c a) :
    ∀ i j, i < a.els.length → j < a.els.length → occupiedAt c a i →
      occupiedAt c a j → keyAt c a i = keyAt c a j → i = j := by
  intro i j hi hj hoi hoj hk
  have h1 := hWf.2.2.2 i hi hoi
  have h2 := hWf.2.2.2 j hj hoj
  rw [hk] at h1
  rw [h1] at h2
  exact Option.some.inj h2

/-- Writing the entry `(hash k, k, v)` into the slot a lookup for `k`
returned preserves well-formedness, records the mapping `k ↦ v` and keeps
every other key's entry. -/
theorem write_main (hED : c.emptyKey ≠ c.deletedKey)
    (a a2 : oaht κ ν) (k : κ) (v : ν) (i : Nat)
    (hWf : Wf c a) (hk : nskey c k)
    (hlk : oaht_lookup_helper c a k (c.hash k) = some i)
    (hmask : a2.mask = a.mask)
    (hels : a2.els = a.els.set i { hash := c.hash k, key := k, value := v }) :
    Wf c a2 ∧ hasEntry c a2 k v ∧
      (∀ k2 v2, nskey c k2 → k2 ≠ k → hasEntry c a k2 v2 → hasEntry c a2 k2 v2) := by
  obtain ⟨hlen, hpow, hhs, hfind⟩ := hWf
  have hi : i < a.els.length := by
    rw [hlen]
    exact Nat.lt_succ_of_le (lookup_helper_le_mask c a k (c.hash k) i hlk)
  have hlen2 : a2.els.length = a2.mask + 1 := by
    rw [hels, List.length_set, hmask, hlen]
  have hkeyI : keyAt c a2 i = k := by
    unfold keyAt
    rw [hels, getD_set_self _ _ _ _ hi]
  have hkeys : ∀ p, p ≠ i → keyAt c a2 p = keyAt c a p := by
    intro p hp
    unfold keyAt
    rw [hels, getD_set_ne _ _ _ _ _ (fun h => hp h.symm)]
  have hgetI : a2.els.getD i (blankEntry c) = { hash := c.hash k, key := k, value := v } := by
    rw [hels, getD_set_self _ _ _ _ hi]
  have hgetNe : ∀ p, p ≠ i → a2.els.getD p (blankEntry c) = a.els.getD p (blankEntry c) := by
    intro p hp
    rw [hels, getD_set_ne _ _ _ _ _ (fun h => hp h.symm)]
  have hshape := lookup_helper_shape c a k (c.hash k) i hlk
  -- every live slot of `a` other than `i` keeps a key different from `k`
  have hkp_ne : ∀ p, p < a.els.length → p ≠ i → occupiedAt c a p → keyAt c a p ≠ k := by
    intro p hp hpi hop heq
    have := hfind p hp hop
    rw [heq] at this
    rw [hlk] at this
    exact hpi (Option.some.inj this).symm
  refine ⟨⟨hlen2, hmask ▸ hpow, ?_, ?_⟩, ⟨i, by rw [hels, List.length_set]; exact hi, hgetI⟩, ?_⟩
  · -- stored hashes
    intro p hp hop
    by_cases hpi : p = i
    · rw [hpi, hgetI]
      unfold keyAt
      rw [hgetI]
    · rw [hgetNe p hpi]
      unfold keyAt
      rw [hgetNe p hpi]
      have hp' : p < a.els.length := by
        rw [hlen, ← hmask, ← hlen2]
        exact hp
      have hop' : occupiedAt c a p := by
        unfold occupiedAt at hop ⊢
        rw [hkeys p hpi] at hop
        exact hop
      exact hhs p hp' hop'
  · -- lookup integrity
    intro p hp hop
    by_cases hpi : p = i
    · subst hpi
      rw [hkeyI]
      unfold oaht_lookup_helper
      rw [hmask]
      exact lookup_loop_self c a a2 k (c.hash k) p hmask hkeys hkeyI hk.1 hk.2 hED _ _ _
        (fun j hj => Option.noConfusion hj) (fun h => Option.noConfusion h) hlk
    · have hp' : p < a.els.length := by
        rw [hlen, ← hmask, ← hlen2]
        exact hp
      have hop' : occupiedAt c a p := by
        unfold occupiedAt at hop ⊢
        rw [hkeys p hpi] at hop
        exact hop
      have hkpk : keyAt c a p ≠ k := hkp_ne p hp' hpi hop'
      have h0a : keyAt c a i ≠ keyAt c a p := by
        rcases hshape with h | h | h
        · rw [h]
          exact fun hc2 => hkpk hc2.symm
        · rw [h]
          exact fun hc2 => hop'.1 hc2.symm
        · rw [h]
          exact fun hc2 => hop'.2 hc2.symm
      have h0b : keyAt c a2 i ≠ keyAt c a p := by
        rw [hkeyI]
        exact fun hc2 => hkpk hc2.symm
      have h0e : keyAt c a2 i ≠ c.emptyKey := by
        rw [hkeyI]
        exact hk.1
      rw [hkeys p hpi]
      unfold oaht_lookup_helper
      rw [hmask]
      exact lookup_loop_frame c a a2 (keyAt c a p) (c.hash (keyAt c a p)) i hmask hkeys
        hop'.1 hop'.2 h0a h0b h0e _ _ _ _ p
        (fun j hj => Option.noConfusion hj) (hfind p hp' hop') rfl
  · -- other keys keep their entries
    intro k2 v2 hk2 hk2k hkv2
    obtain ⟨m2, hm2, hm2e⟩ := hkv2
    have hm2i : m2 ≠ i := by
      intro hc2
      subst hc2
      have hkm2 : keyAt c a m2 = k2 := by
        unfold keyAt
        rw [hm2e]
      rcases hshape with h | h | h
      · rw [hkm2] at h
        exact hk2k h
      · rw [hkm2] at h
        exact hk2.1 h
      · rw [hkm2] at h
        exact hk2.2 h
    exact ⟨m2, by rw [hels, List.length_set]; exact hm2, by rw [hgetNe m2 hm2i]; exact hm2e⟩

/-- One step of the resize reinsertion loop. -/
theorem reinsertLoop_cons (a : oaht κ ν) (i : Nat) (is : List Nat) (b : oaht κ ν) :
    reinsertLoop c a (i :: is) b =
      if keyAt c a i = c.emptyKey ∨ keyAt c a i = c.deletedKey then
        reinsertLoop c a is b
      else
        match oaht_lookup_helper c b (keyAt c a i)
            ((a.els.getD i (blankEntry c)).hash) with
        | none => none
        | some j =>
          reinsertLoop c a is { b with els := b.els.set j (a.els.getD i (blankEntry c)) } :=
  rfl

/-- Invariant of the resize reinsertion loop: starting from a well-formed
tombstone-free target whose live entries are exactly the already-processed
live entries of the source, a successful run yields a well-formed table
holding an entry-for-entry copy of every live slot of the source. -/
theorem reinsertLoop_main (hED : c.emptyKey ≠ c.deletedKey) (a : oaht κ ν)
    (hdis : ∀ i j, i < a.els.length → j < a.els.length → occupiedAt c a i →
      occupiedAt c a j → keyAt c a i = keyAt c a j → i = j)
    (hhs : ∀ i, i < a.els.length → occupiedAt c a i →
      (a.els.getD i (blankEntry c)).hash = c.hash (keyAt c a i)) :
    ∀ is b, is.Nodup →
      Wf c b →
      (∀ p, keyAt c b p ≠ c.deletedKey) →
      (∀ j, j < b.els.length → occupiedAt c b j →
        ∃ m2, m2 < a.els.length ∧ ¬ m2 ∈ is ∧
          b.els.getD j (blankEntry c) = a.els.getD m2 (blankEntry c)) →
      (∀ m2, m2 < a.els.length → ¬ m2 ∈ is → occupiedAt c a m2 →
        ∃ j, j < b.els.length ∧
          b.els.getD j (blankEntry c) = a.els.getD m2 (blankEntry c)) →
      ∀ bf, reinsertLoop c a is b = some bf →
        Wf c bf ∧
        (∀ m2, m2 < a.els.length → occupiedAt c a m2 →
          ∃ j, j < bf.els.length ∧
            bf.els.getD j (blankEntry c) = a.els.getD m2 (blankEntry c)) := by
  intro is
  induction is with
  | nil =>
    intro b _ hWfb _ _ hc2 bf hres
    have hbf : b = bf := Option.some.inj hres
    subst hbf
    exact ⟨hWfb, fun m2 hm2 hom2 => hc2 m2 hm2 (List.not_mem_nil m2) hom2⟩
  | cons i is ih =>
    intro b hnd hWfb hnodel hc1 hc2 bf hres
    rw [reinsertLoop_cons] at hres
    by_cases hskip : keyAt c a i = c.emptyKey ∨ keyAt c a i = c.deletedKey
    · rw [if_pos hskip] at hres
      have hc1' : ∀ j, j < b.els.length → occupiedAt c b j →
          ∃ m2, m2 < a.els.length ∧ ¬ m2 ∈ is ∧
            b.els.getD j (blankEntry c) = a.els.getD m2 (blankEntry c) := by
        intro j hj hoj
        obtain ⟨m2, hm2, hm2n, hm2e⟩ := hc1 j hj hoj
        exact ⟨m2, hm2, fun hmem => hm2n (List.mem_cons_of_mem i hmem), hm2e⟩
      have hc2' : ∀ m2, m2 < a.els.length → ¬ m2 ∈ is → occupiedAt c a m2 →
          ∃ j, j < b.els.length ∧
            b.els.getD j (blankEntry c) = a.els.getD m2 (blankEntry c) := by
        intro m2 hm2 hm2n hom2
        by_cases hm2i : m2 = i
        · subst hm2i
          rcases hskip with h | h
          · exact absurd h hom2.1
          · exact absurd h hom2.2
        · refine hc2 m2 hm2 ?_ hom2
          intro hmem
          rcases List.mem_cons.mp hmem with h | h
          · exact hm2i h
          · exact hm2n h
      exact ih b (List.nodup_cons.mp hnd).2 hWfb hnodel hc1' hc2' bf hres
    · rw [if_neg hskip] at hres
      push_neg at hskip
      have hoi : occupiedAt c a i := hskip
      have hi : i < a.els.length := by
        by_contra hcon
        have : keyAt c a i = c.emptyKey := by
          unfold keyAt
          rw [getD_of_length_le _ _ _ (Nat.le_of_not_lt hcon)]
          rfl
        exact hoi.1 this
      cases hlkb : oaht_lookup_helper c b (keyAt c a i)
          ((a.els.getD i (blankEntry c)).hash) with
      | none =>
        rw [hlkb] at hres
        exact Option.noConfusion hres
      | some j =>
        rw [hlkb] at hres
        have hj : j < b.els.length := by
          rw [hWfb.1]
          exact Nat.lt_succ_of_le (lookup_helper_le_mask c b _ _ j hlkb)
        -- the returned slot of the fresh table is EMPTY
        have hbjE : keyAt c b j = c.emptyKey := by
          rcases lookup_helper_shape c b _ _ j hlkb with h | h | h
          · exfalso
            have hobj : occupiedAt c b j := by
              unfold occupiedAt
              rw [h]
              exact ⟨hoi.1, hoi.2⟩
            obtain ⟨m2, hm2, hm2n, hm2e⟩ := hc1 j hj hobj
            have hkm2 : keyAt c a m2 = keyAt c a i := by
              unfold keyAt
              rw [← hm2e]
              exact h
            have hom2 : occupiedAt c a m2 := by
              unfold occupiedAt
              rw [hkm2]
              exact hoi
            have := hdis m2 i hm2 hi hom2 hoi hkm2
            exact hm2n (this ▸ List.mem_cons_self m2 is)
          · exact h
          · exact absurd h (hnodel j)
        -- rewrite the stored hash of the reinserted entry
        have hhash : (a.els.getD i (blankEntry c)).hash = c.hash (keyAt c a i) :=
          hhs i hi hoi
        have hea : a.els.getD i (blankEntry c) =
            { hash := c.hash (keyAt c a i), key := keyAt c a i,
              value := (a.els.getD i (blankEntry c)).value } := by
          rw [← hhash]
          rfl
        have hlkb2 : oaht_lookup_helper c b (keyAt c a i)
            (c.hash (keyAt c a i)) = some j := by
          rw [← hhash]
          exact hlkb
        obtain ⟨hWfb2, hkvb2, hpresb2⟩ := write_main c hED b
          { b with els := b.els.set j (a.els.getD i (blankEntry c)) }
          (keyAt c a i) ((a.els.getD i (blankEntry c)).value) j hWfb
          ⟨hoi.1, hoi.2⟩ hlkb2 rfl (by rw [← hea])
        have hkeys2 : ∀ p, p ≠ j →
            keyAt c { b with els := b.els.set j (a.els.getD i (blankEntry c)) } p =
              keyAt c b p := by
          intro p hp
          unfold keyAt
          simp only
          rw [getD_set_ne _ _ _ _ _ (fun h => hp h.symm)]
        have hkeyj : keyAt c { b with els := b.els.set j (a.els.getD i (blankEntry c)) } j =
            keyAt c a i := by
          unfold keyAt
          simp only
          rw [getD_set_self _ _ _ _ hj]
        have hnodel2 : ∀ p,
            keyAt c { b with els := b.els.set j (a.els.getD i (blankEntry c)) } p ≠
              c.deletedKey := by
          intro p
          by_cases hp : p = j
          · rw [hp, hkeyj]
            exact hoi.2
          · rw [hkeys2 p hp]
            exact hnodel p
        have hc1b2 : ∀ j2, j2 < (b.els.set j (a.els.getD i (blankEntry c))).length →
            occupiedAt c { b with els := b.els.set j (a.els.getD i (blankEntry c)) } j2 →
            ∃ m2, m2 < a.els.length ∧ ¬ m2 ∈ is ∧
              (b.els.set j (a.els.getD i (blankEntry c))).getD j2 (blankEntry c) =
                a.els.getD m2 (blankEntry c) := by
          intro j2 hj2 hoj2
          by_cases hjj : j2 = j
          · subst hjj
            refine ⟨i, hi, (List.nodup_cons.mp hnd).1, ?_⟩
            rw [getD_set_self _ _ _ _ hj]
          · rw [getD_set_ne _ _ _ _ _ (fun h => hjj h.symm)]
            have hoj2' : occupiedAt c b j2 := by
              unfold occupiedAt at hoj2 ⊢
              rw [hkeys2 j2 hjj] at hoj2
              exact hoj2
            have hj2' : j2 < b.els.length := by
              rw [List.length_set] at hj2
              exact hj2
            obtain ⟨m2, hm2, hm2n, hm2e⟩ := hc1 j2 hj2' hoj2'
            exact ⟨m2, hm2, fun hmem => hm2n (List.mem_cons_of_mem i hmem), hm2e⟩
        have hc2b2 : ∀ m2, m2 < a.els.length → ¬ m2 ∈ is → occupiedAt c a m2 →
            ∃ j2, j2 < (b.els.set j (a.els.getD i (blankEntry c))).length ∧
              (b.els.set j (a.els.getD i (blankEntry c))).getD j2 (blankEntry c) =
                a.els.getD m2 (blankEntry c) := by
          intro m2 hm2 hm2n hom2
          by_cases hm2i : m2 = i
          · subst hm2i
            refine ⟨j, by rw [List.length_set]; exact hj, ?_⟩
            rw [getD_set_self _ _ _ _ hj]
          · have hm2n' : ¬ m2 ∈ i :: is := by
              intro hmem
              rcases List.mem_cons.mp hmem with h | h
              · exact hm2i h
              · exact hm2n h
            obtain ⟨j2, hj2, hj2e⟩ := hc2 m2 hm2 hm2n' hom2
            have hjj : j2 ≠ j := by
              intro hc3
              have : keyAt c b j2 = keyAt c a m2 := by
                unfold keyAt
                rw [hj2e]
              rw [hc3, hbjE] at this
              exact hom2.1 this.symm
            refine ⟨j2, by rw [List.length_set]; exact hj2, ?_⟩
            rw [getD_set_ne _ _ _ _ _ (fun h => hjj h.symm)]
            exact hj2e
        exact ih { b with els := b.els.set j (a.els.getD i (blankEntry c)) }
          (List.nodup_cons.mp hnd).2 hWfb2 hnodel2 hc1b2 hc2b2 bf hres

/-- A successful `oaht_resize` of a structurally sound source yields a
well-formed table and keeps every live key's entry. -/
theorem oaht_resize_main (hED : c.emptyKey ≠ c.deletedKey) (a b : oaht κ ν) (m : Nat)
    (hlen : a.els.length = a.mask + 1)
    (hdis : ∀ i j, i < a.els.length → j < a.els.length → occupiedAt c a i →
      occupiedAt c a j → keyAt c a i = keyAt c a j → i = j)
    (hhs : ∀ i, i < a.els.length → occupiedAt c a i →
      (a.els.getD i (blankEntry c)).hash = c.hash (keyAt c a i))
    (hres : oaht_resize c a m = some b) :
    Wf c b ∧ (∀ k2 v2, nskey c k2 → hasEntry c a k2 v2 → hasEntry c b k2 v2) := by
  unfold oaht_resize at hres
  rw [oaht_create_presized_eq] at hres
  have hres2 : reinsertLoop c a (List.range (a.mask + 1))
      (oaht.mk a.used a.used 7 (List.replicate 8 (blankEntry c))) = some b := hres
  have hkey0 : ∀ p, keyAt c
      (oaht.mk a.used a.used 7 (List.replicate 8 (blankEntry c))) p = c.emptyKey := by
    intro p
    unfold keyAt
    simp only
    rw [getD_replicate_blank]
    rfl
  have hWf0 : Wf c (oaht.mk a.used a.used 7 (List.replicate 8 (blankEntry c))) := by
    refine ⟨by simp, ⟨3, by omega, rfl⟩, ?_, ?_⟩
    · intro p _ hop
      exact absurd (hkey0 p) hop.1
    · intro p _ hop
      exact absurd (hkey0 p) hop.1
  have hmain := reinsertLoop_main c hED a hdis hhs (List.range (a.mask + 1))
    (oaht.mk a.used a.used 7 (List.replicate 8 (blankEntry c)))
    (List.nodup_range (a.mask + 1)) hWf0
    (fun p => by rw [hkey0 p]; exact hED)
    (fun j hj hoj => absurd (hkey0 j) hoj.1)
    (fun m2 hm2 hm2n hom2 => by
      exfalso
      exact hm2n (List.mem_range.mpr (by rw [← hlen]; exact hm2)))
    b hres2
  refine ⟨hmain.1, ?_⟩
  intro k2 v2 hk2 hkv2
  obtain ⟨m2, hm2, hm2e⟩ := hkv2
  have hom2 : occupiedAt c a m2 := by
    unfold occupiedAt keyAt
    rw [hm2e]
    exact hk2
  obtain ⟨j, hj, hje⟩ := hmain.2 m2 hm2 hom2
  exact ⟨j, hj, by rw [hje]; exact hm2e⟩

/-- Common tail of `oaht_set` after the counter update and entry write:
either the resize branch or the plain return, for any counter values and
growth request. -/
theorem oaht_set_finish (hED : c.emptyKey ≠ c.deletedKey)
    (a t2 : oaht κ ν) (k : κ) (v : ν) (i : Nat) (cond : Prop) [Decidable cond]
    (F U g : Nat)
    (hWf : Wf c a) (hk : nskey c k)
    (hlk : oaht_lookup_helper c a k (c.hash k) = some i)
    (hset : (if cond then
        oaht_resize c (oaht.mk F U a.mask
          (a.els.set i (oaht_entry.mk (c.hash k) k v))) g
      else some (oaht.mk F U a.mask
          (a.els.set i (oaht_entry.mk (c.hash k) k v)))) = some t2) :
    Wf c t2 ∧ hasEntry c t2 k v ∧
      (∀ k2 v2, nskey c k2 → k2 ≠ k → hasEntry c a k2 v2 → hasEntry c t2 k2 v2) := by
  obtain ⟨hWf2, hkv2, hpres2⟩ := write_main c hED a
    (oaht.mk F U a.mask (a.els.set i (oaht_entry.mk (c.hash k) k v)))
    k v i hWf hk hlk rfl rfl
  by_cases hc2 : cond
  · rw [if_pos hc2] at hset
    obtain ⟨hWf3, htransfer⟩ := oaht_resize_main c hED _ t2 g hWf2.1
      (Wf_distinct c _ hWf2) hWf2.2.2.1 hset
    exact ⟨hWf3, htransfer k v hk hkv2,
      fun k2 v2 h2 h3 h4 => htransfer k2 v2 h2 (hpres2 k2 v2 h2 h3 h4)⟩
  · rw [if_neg hc2] at hset
    have ht2 := Option.some.inj hset
    rw [← ht2]
    exact ⟨hWf2, hkv2, hpres2⟩

/-- A successful `oaht_set` on a well-formed table yields a well-formed
table that maps `k` to `v` and keeps every other key's entry, whether or
not the write triggered a resize. -/
theorem oaht_set_main (hED : c.emptyKey ≠ c.deletedKey)
    (a t2 : oaht κ ν) (k : κ) (v : ν)
    (hWf : Wf c a) (hk : nskey c k)
    (hset : oaht_set c a k v = some t2) :
    Wf c t2 ∧ hasEntry c t2 k v ∧
      (∀ k2 v2, nskey c k2 → k2 ≠ k → hasEntry c a k2 v2 → hasEntry c t2 k2 v2) := by
  unfold oaht_set at hset
  simp only [] at hset
  cases hlk : oaht_lookup_helper c a k (c.hash k) with
  | none =>
    rw [hlk] at hset
    exact Option.noConfusion hset
  | some i =>
    rw [hlk] at hset
    simp only [] at hset
    by_cases h1 : (a.els.getD i (blankEntry c)).key = c.emptyKey
    · rw [if_pos h1] at hset
      exact oaht_set_finish c hED a t2 k v i _ _ _ _ hWf hk hlk hset
    · rw [if_neg h1] at hset
      by_cases h2 : (a.els.getD i (blankEntry c)).key = c.deletedKey
      · rw [if_pos h2] at hset
        exact oaht_set_finish c hED a t2 k v i _ _ _ _ hWf hk hlk hset
      · rw [if_neg h2] at hset
        exact oaht_set_finish c hED a t2 k v i _ _ _ _ hWf hk hlk hset

/-- A successful `oaht_delete` on a well-formed table yields a well-formed
table and keeps every other key's entry. -/
theorem oaht_delete_main (hED : c.emptyKey ≠ c.deletedKey)
    (a t2 : oaht κ ν) (k : κ)
    (hWf : Wf c a) (hk : nskey c k)
    (hdel : oaht_delete c a k = some t2) :
    Wf c t2 ∧ (∀ k2 v2, nskey c k2 → k2 ≠ k → hasEntry c a k2 v2 → hasEntry c t2 k2 v2) := by
  obtain ⟨hlen, hpow, hhs, hfind⟩ := hWf
  unfold oaht_delete at hdel
  cases hlk : oaht_lookup_helper c a k (c.hash k) with
  | none =>
    rw [hlk] at hdel
    exact Option.noConfusion hdel
  | some i =>
    rw [hlk] at hdel
    simp only at hdel
    have hshape := lookup_helper_shape c a k (c.hash k) i hlk
    by_cases hocc : ¬ (a.els.getD i (blankEntry c)).key = c.emptyKey ∧
        ¬ (a.els.getD i (blankEntry c)).key = c.deletedKey
    · rw [if_pos hocc] at hdel
      have ht2 := Option.some.inj hdel
      have hki : keyAt c a i = k := by
        rcases hshape with h | h | h
        · exact h
        · exact absurd h hocc.1
        · exact absurd h hocc.2
      have hi : i < a.els.length := by
        rw [hlen]
        exact Nat.lt_succ_of_le (lookup_helper_le_mask c a k (c.hash k) i hlk)
      have hels2 : t2.els =
          a.els.set i { a.els.getD i (blankEntry c) with key := c.deletedKey } := by
        rw [← ht2]
      have hmask2 : t2.mask = a.mask := by rw [← ht2]
      have hkeyI : keyAt c t2 i = c.deletedKey := by
        unfold keyAt
        rw [hels2, getD_set_self _ _ _ _ hi]
      have hkeys : ∀ p, p ≠ i → keyAt c t2 p = keyAt c a p := by
        intro p hp
        unfold keyAt
        rw [hels2, getD_set_ne _ _ _ _ _ (fun h => hp h.symm)]
      have hgetNe : ∀ p, p ≠ i →
          t2.els.getD p (blankEntry c) = a.els.getD p (blankEntry c) := by
        intro p hp
        rw [hels2, getD_set_ne _ _ _ _ _ (fun h => hp h.symm)]
      have hkp_ne : ∀ p, p < a.els.length → p ≠ i → occupiedAt c a p →
          keyAt c a p ≠ k := by
        intro p hp hpi hop heq
        have := hfind p hp hop
        rw [heq, hlk] at this
        exact hpi (Option.some.inj this).symm
      refine ⟨⟨by rw [hels2, List.length_set, hmask2, hlen], hmask2 ▸ hpow, ?_, ?_⟩, ?_⟩
      · intro p hp hop
        by_cases hpi : p = i
        · exfalso
          rw [hpi] at hop
          exact hop.2 hkeyI
        · rw [hgetNe p hpi]
          unfold keyAt
          rw [hgetNe p hpi]
          have hp' : p < a.els.length := by
            rw [hels2, List.length_set] at hp
            exact hp
          have hop' : occupiedAt c a p := by
            unfold occupiedAt at hop ⊢
            rw [hkeys p hpi] at hop
            exact hop
          exact hhs p hp' hop'
      · intro p hp hop
        by_cases hpi : p = i
        · exfalso
          rw [hpi] at hop
          exact hop.2 hkeyI
        · have hp' : p < a.els.length := by
            rw [hels2, List.length_set] at hp
            exact hp
          have hop' : occupiedAt c a p := by
            unfold occupiedAt at hop ⊢
            rw [hkeys p hpi] at hop
            exact hop
          have hkpk : keyAt c a p ≠ k := hkp_ne p hp' hpi hop'
          have h0a : keyAt c a i ≠ keyAt c a p := by
            rw [hki]
            exact fun hc2 => hkpk hc2.symm
          have h0b : keyAt c t2 i ≠ keyAt c a p := by
            rw [hkeyI]
            exact fun hc2 => hop'.2 hc2.symm
          have h0e : keyAt c t2 i ≠ c.emptyKey := by
            rw [hkeyI]
            exact fun hc2 => hED hc2.symm
          rw [hkeys p hpi]
          unfold oaht_lookup_helper
          rw [hmask2]
          exact lookup_loop_frame c a t2 (keyAt c a p) (c.hash (keyAt c a p)) i hmask2 hkeys
            hop'.1 hop'.2 h0a h0b h0e _ _ _ _ p
            (fun j hj => Option.noConfusion hj) (hfind p hp' hop') rfl
      · intro k2 v2 hk2 hk2k hkv2
        obtain ⟨m2, hm2, hm2e⟩ := hkv2
        have hm2i : m2 ≠ i := by
          intro hc2
          subst hc2
          have : keyAt c a m2 = k2 := by
            unfold keyAt
            rw [hm2e]
          rw [hki] at this
          exact hk2k this.symm
        exact ⟨m2, by rw [hels2, List.length_set]; exact hm2,
          by rw [hgetNe m2 hm2i]; exact hm2e⟩
    · rw [if_neg hocc] at hdel
      have ht2 := Option.some.inj hdel
      rw [← ht2]
      exact ⟨⟨hlen, hpow, hhs, hfind⟩, fun k2 v2 _ _ h => h⟩

/-- On a well-formed table holding the entry `(k, v)`, `oaht_get` returns
`v` whatever the default. -/
theorem oaht_get_of_hasEntry (a : oaht κ ν) (k : κ) (v d : ν)
    (hWf : Wf c a) (hk : nskey c k) (hkv : hasEntry c a k v) :
    oaht_get c a k d = some v := by
  obtain ⟨i, hi, hie⟩ := hkv
  have hocc : occupiedAt c a i := by
    unfold occupiedAt keyAt
    rw [hie]
    exact hk
  have hkey : keyAt c a i = k := by
    unfold keyAt
    rw [hie]
  have hfind := hWf.2.2.2 i hi hocc
  rw [hkey] at hfind
  unfold oaht_get
  rw [hfind]
  simp only
  rw [if_neg (by rw [hie]; push_neg; exact hk), hie]

/-- Running any sequence of mutations that never touches `k` (and uses
only non-sentinel keys) preserves well-formedness and the entry of `k`. -/
theorem applyOps_main (hED : c.emptyKey ≠ c.deletedKey) (k : κ) (v : ν)
    (hk : nskey c k) :
    ∀ ops : List (TableOp κ ν), ∀ t t2 : oaht κ ν,
      Wf c t → hasEntry c t k v →
      (∀ op, op ∈ ops → opKey op ≠ k ∧ nskey c (opKey op)) →
      applyOps c t ops = some t2 →
      Wf c t2 ∧ hasEntry c t2 k v := by
  intro ops
  induction ops with
  | nil =>
    intro t t2 hWf hkv _ happ
    have ht := Option.some.inj happ
    rw [← ht]
    exact ⟨hWf, hkv⟩
  | cons op ops ih =>
    intro t t2 hWf hkv hops happ
    unfold applyOps at happ
    cases hap : applyOp c t op with
    | none =>
      rw [hap] at happ
      exact Option.noConfusion happ
    | some t1 =>
      rw [hap] at happ
      obtain ⟨hne, hns⟩ := hops op (List.mem_cons_self op ops)
      have hstep : Wf c t1 ∧ hasEntry c t1 k v := by
        cases op with
        | setOp k2 v2 =>
          obtain ⟨hWf1, _, hpres⟩ := oaht_set_main c hED t t1 k2 v2 hWf hns hap
          exact ⟨hWf1, hpres k v hk (fun h => hne h.symm) hkv⟩
        | delOp k2 =>
          obtain ⟨hWf1, hpres⟩ := oaht_delete_main c hED t t1 k2 hWf hns hap
          exact ⟨hWf1, hpres k v hk (fun h => hne h.symm) hkv⟩
      exact ih t1 t2 hstep.1 hstep.2
        (fun op2 hmem => hops op2 (List.mem_cons_of_mem op hmem)) happ

/-! ### The claims -/

/-- Claim C4: for every table with at least one EMPTY slot (and a
power-of-two capacity) and every non-sentinel key with its hash, the
lookup primitive terminates, and it returns exactly what the
specification's probe rules prescribe: the Occupied slot holding the key
if one is reached, else the first Tombstone seen before the terminating
Empty slot, else that Empty slot — probing from `hash & capacityMask`,
advancing by `(pos + 1) & capacityMask`. -/
theorem claim_C4_lookup_refines_spec (a : oaht κ ν) (key : κ) (hsh : Nat)
    (hke : key ≠ c.emptyKey) (hkd : key ≠ c.deletedKey)
    (hpow : ∃ w, a.mask = 2 ^ w - 1)
    (hempty : ∃ j, j ≤ a.mask ∧ keyAt c a j = c.emptyKey) :
    oaht_lookup_helper c a key hsh = oaht_lookup_spec c a key hsh ∧
    (oaht_lookup_helper c a key hsh).isSome := by
  obtain ⟨w, hm⟩ := hpow
  constructor
  · unfold oaht_lookup_helper oaht_lookup_spec
    exact lookup_loop_eq_spec_loop c a key hsh hke hkd _ _ _
  · exact lookup_helper_isSome c a key hsh w hm hempty

/-- Witness for C4 at a concrete table and key. -/
theorem claim_C4_witness :
    oaht_lookup_helper intCfg tSevenDel 5 5 = oaht_lookup_spec intCfg tSevenDel 5 5 ∧
    (oaht_lookup_helper intCfg tSevenDel 5 5).isSome :=
  claim_C4_lookup_refines_spec intCfg tSevenDel 5 5 (by decide) (by decide)
    ⟨3, rfl⟩ ⟨0, by decide, by decide⟩

/-- Claim C5: on a well-formed table, after `set(t, k, v)` with a
non-sentinel key, `get` of `k` returns `v` for any default, and this
remains true through any further sequence of set/delete operations on
other (non-sentinel) keys, i.e. until `k` is deleted or overwritten. -/
theorem claim_C5_set_then_get (t t1 t2 : oaht κ ν) (k : κ) (v d : ν)
    (ops : List (TableOp κ ν))
    (hED : c.emptyKey ≠ c.deletedKey)
    (hWf : Wf c t) (hk : nskey c k)
    (hset : oaht_set c t k v = some t1)
    (hops : ∀ op, op ∈ ops → opKey op ≠ k ∧ nskey c (opKey op))
    (happ : applyOps c t1 ops = some t2) :
    oaht_get c t2 k d = some v := by
  obtain ⟨hWf1, hkv1, _⟩ := oaht_set_main c hED t t1 k v hWf hk hset
  obtain ⟨hWf2, hkv2⟩ := applyOps_main c hED k v hk ops t1 t2 hWf1 hkv1 hops happ
  exact oaht_get_of_hasEntry c t2 k v d hWf2 hk hkv2

/-- Witness for C5 at a concrete table, key, value and operation list. -/
theorem claim_C5_witness : oaht_get intCfg tC5b 5 0 = some 42 :=
  claim_C5_set_then_get intCfg blank8Int tC5a tC5b 5 42 0
    [.setOp 7 1, .delOp 7]
    (by decide)
    ⟨rfl, ⟨3, by omega, rfl⟩, by decide, by decide⟩
    (by decide)
    (by decide)
    (fun op hmem => by
      fin_cases hmem <;> exact ⟨by decide, by decide, by decide⟩)
    (by decide)

/-- Claim C8: `oaht_delete` never triggers a resize — the fill counter,
the capacity mask and the array length are unchanged, and every slot
other than the deleted key's slot is untouched; when the key is present
its slot is marked DELETED and `used` drops by exactly one; when it is
absent the table is returned unchanged. -/
theorem claim_C8_delete_frame (a t2 : oaht κ ν) (k : κ)
    (hED : c.emptyKey ≠ c.deletedKey)
    (hWf : Wf c a) (hk : nskey c k)
    (hcount : a.els.countP (liveEntry c) = a.used)
    (hdel : oaht_delete c a k = some t2) :
    t2.fill = a.fill ∧ t2.mask = a.mask ∧ t2.els.length = a.els.length ∧
    ((∃ i, i < a.els.length ∧ keyAt c a i = k ∧
        t2.els = a.els.set i { a.els.getD i (blankEntry c) with key := c.deletedKey } ∧
        (∀ j, j ≠ i → t2.els.getD j (blankEntry c) = a.els.getD j (blankEntry c)) ∧
        t2.used + 1 = a.used) ∨
      ((∀ i, i < a.els.length → keyAt c a i ≠ k) ∧ t2 = a)) := by
  obtain ⟨hlen, hpow, hhs, hfind⟩ := hWf
  unfold oaht_delete at hdel
  cases hlk : oaht_lookup_helper c a k (c.hash k) with
  | none =>
    rw [hlk] at hdel
    exact Option.noConfusion hdel
  | some i =>
    rw [hlk] at hdel
    simp only at hdel
    have hshape := lookup_helper_shape c a k (c.hash k) i hlk
    by_cases hocc : ¬ (a.els.getD i (blankEntry c)).key = c.emptyKey ∧
        ¬ (a.els.getD i (blankEntry c)).key = c.deletedKey
    · rw [if_pos hocc] at hdel
      have ht2 := Option.some.inj hdel
      have hki : keyAt c a i = k := by
        rcases hshape with h | h | h
        · exact h
        · exact absurd h hocc.1
        · exact absurd h hocc.2
      have hi : i < a.els.length := by
        rw [hlen]
        exact Nat.lt_succ_of_le (lookup_helper_le_mask c a k (c.hash k) i hlk)
      -- `used` is at least 1 and at most the capacity
      have hgetel : a.els.getD i (blankEntry c) = a.els[i] := by
        rw [List.getD_eq_getElem?_getD, List.getElem?_eq_getElem hi]
        rfl
      have hlive : liveEntry c a.els[i] = true := by
        unfold liveEntry
        rw [← hgetel]
        rw [if_neg]
        push_neg
        unfold keyAt at hki
        rw [hki]
        exact hk
      have hused1 : 1 ≤ a.used := by
        rw [← hcount]
        exact List.countP_pos.mpr ⟨a.els[i], List.getElem_mem hi, hlive⟩
      have husedM : a.used ≤ SIZE_T_MOD := by
        rw [← hcount]
        obtain ⟨w, hw, hwm⟩ := hpow
        calc a.els.countP (liveEntry c) ≤ a.els.length := List.countP_le_length _
          _ = a.mask + 1 := hlen
          _ = 2 ^ w := by rw [hwm]; exact Nat.sub_add_cancel Nat.one_le_two_pow
          _ ≤ 2 ^ 32 := Nat.pow_le_pow_right (by omega) (by omega)
      have hdec : (a.used + (SIZE_T_MOD - 1)) % SIZE_T_MOD = a.used - 1 := by
        have hMpos : 0 < SIZE_T_MOD := by norm_num [SIZE_T_MOD]
        have harg : a.used + (SIZE_T_MOD - 1) = (a.used - 1) + SIZE_T_MOD := by omega
        rw [harg, Nat.add_mod_right]
        exact Nat.mod_eq_of_lt (by omega)
      refine ⟨by rw [← ht2], by rw [← ht2], by rw [← ht2]; exact List.length_set _ _ _, ?_⟩
      refine Or.inl ⟨i, hi, hki, by rw [← ht2], ?_, ?_⟩
      · intro j hj
        rw [← ht2]
        simp only
        exact getD_set_ne _ _ _ _ _ (fun h => hj h.symm)
      · rw [← ht2]
        simp only
        rw [hdec]
        omega
    · rw [if_neg hocc] at hdel
      have ht2 := Option.some.inj hdel
      refine ⟨by rw [← ht2], by rw [← ht2], by rw [← ht2], ?_⟩
      refine Or.inr ⟨?_, ht2.symm⟩
      intro m hm hkm
      have hom : occupiedAt c a m := by
        unfold occupiedAt
        rw [hkm]
        exact hk
      have := hfind m hm hom
      rw [hkm, hlk] at this
      have him := Option.some.inj this
      rw [him] at hocc
      push_neg at hocc
      unfold keyAt at hkm
      rcases Decidable.em ((a.els.getD m (blankEntry c)).key = c.emptyKey) with h | h
      · rw [hkm] at h
        exact hk.1 h
      · have := hocc h
        rw [hkm] at this
        exact hk.2 this

/-- One step of the `oaht_iter` scan loop. -/
theorem oaht_iter_loop_succ (a : oaht κ ν) (cnt pos : Nat) :
    oaht_iter_loop c a (cnt + 1) pos =
      if (a.els.getD pos (blankEntry c)).key = c.emptyKey ∨
          (a.els.getD pos (blankEntry c)).key = c.deletedKey then
        oaht_iter_loop c a cnt (pos + 1)
      else ((pos + 1) % SIZE_T_MOD,
        some ((a.els.getD pos (blankEntry c)).key,
          (a.els.getD pos (blankEntry c)).value)) :=
  rfl

/-- Skipping a dead slot: the iterator gives the same answer from the next
cursor. -/
theorem oaht_iter_skip (a : oaht κ ν) (pos : Nat) (hpos : pos ≤ a.mask)
    (hdead : (a.els.getD pos (blankEntry c)).key = c.emptyKey ∨
      (a.els.getD pos (blankEntry c)).key = c.deletedKey) :
    oaht_iter c a pos = oaht_iter c a (pos + 1) := by
  unfold oaht_iter
  have h1 : a.mask + 1 - pos = (a.mask - pos) + 1 := by omega
  have h2 : a.mask + 1 - (pos + 1) = a.mask - pos := by omega
  rw [h1, h2, oaht_iter_loop_succ, if_pos hdead]

/-- A live slot: the iterator returns it with the advanced cursor. -/
theorem oaht_iter_hit (a : oaht κ ν) (pos : Nat) (hpos : pos ≤ a.mask)
    (hlive : ¬ ((a.els.getD pos (blankEntry c)).key = c.emptyKey ∨
      (a.els.getD pos (blankEntry c)).key = c.deletedKey)) :
    oaht_iter c a pos = ((pos + 1) % SIZE_T_MOD,
      some ((a.els.getD pos (blankEntry c)).key,
        (a.els.getD pos (blankEntry c)).value)) := by
  unfold oaht_iter
  have h1 : a.mask + 1 - pos = (a.mask - pos) + 1 := by omega
  rw [h1, oaht_iter_loop_succ, if_neg hlive]

/-- Past the end: the iterator reports the done sentinel. -/
theorem oaht_iter_done (a : oaht κ ν) (pos : Nat) (hpos : a.mask + 1 ≤ pos) :
    oaht_iter c a pos = (0, none) := by
  unfold oaht_iter
  have h1 : a.mask + 1 - pos = 0 := by omega
  rw [h1]
  rfl

/-- One step of the full-pass loop. -/
theorem oaht_iter_pass_loop_succ (a : oaht κ ν) (fuel pos : Nat) :
    oaht_iter_pass_loop c a (fuel + 1) pos =
      (if (oaht_iter c a pos).1 = 0 then []
       else
        match (oaht_iter c a pos).2 with
        | none => []
        | some kv => kv :: oaht_iter_pass_loop c a fuel (oaht_iter c a pos).1) :=
  rfl

/-- The full pass collects, in physical slot order, exactly the live
entries of the suffix of the array that starts at the cursor. -/
theorem oaht_iter_pass_loop_eq (a : oaht κ ν)
    (hlen : a.els.length = a.mask + 1) (hcap : a.mask + 1 < SIZE_T_MOD) :
    ∀ meas pos fuel, a.mask + 2 - pos = meas → meas ≤ fuel →
      oaht_iter_pass_loop c a fuel pos =
        ((a.els.drop pos).filter (liveEntry c)).map (fun e => (e.key, e.value)) := by
  intro meas
  induction meas with
  | zero =>
    intro pos fuel hmeas _
    have hpos : a.els.length ≤ pos := by omega
    rw [List.drop_eq_nil_of_le hpos]
    cases fuel with
    | zero => rfl
    | succ f =>
      rw [oaht_iter_pass_loop_succ, oaht_iter_done c a pos (by omega), if_pos rfl]
      rfl
  | succ m ih =>
    intro pos fuel hmeas hfuel
    cases fuel with
    | zero => omega
    | succ f =>
      by_cases hpos : pos ≤ a.mask
      · have hplen : pos < a.els.length := by omega
        by_cases hdead : (a.els.getD pos (blankEntry c)).key = c.emptyKey ∨
            (a.els.getD pos (blankEntry c)).key = c.deletedKey
        · -- dead slot: both sides skip it
          rw [oaht_iter_pass_loop_succ, oaht_iter_skip c a pos hpos hdead,
            ← oaht_iter_pass_loop_succ]
          rw [ih (pos + 1) (f + 1) (by omega) (by omega)]
          rw [List.drop_eq_getElem_cons hplen, List.filter_cons]
          have hgetel : a.els.getD pos (blankEntry c) = a.els[pos] := by
            rw [List.getD_eq_getElem?_getD, List.getElem?_eq_getElem hplen]
            rfl
          have hfalse : liveEntry c a.els[pos] = false := by
            unfold liveEntry
            rw [← hgetel, if_pos hdead]
          rw [hfalse]
          simp only [Bool.false_eq_true, if_false]
        · -- live slot: emitted, then continue from the next cursor
          rw [oaht_iter_pass_loop_succ, oaht_iter_hit c a pos hpos hdead]
          have hmod : (pos + 1) % SIZE_T_MOD = pos + 1 :=
            Nat.mod_eq_of_lt (by omega)
          rw [hmod]
          simp only
          rw [if_neg (by omega)]
          rw [ih (pos + 1) f (by omega) (by omega)]
          rw [List.drop_eq_getElem_cons hplen, List.filter_cons]
          have hgetel : a.els.getD pos (blankEntry c) = a.els[pos] := by
            rw [List.getD_eq_getElem?_getD, List.getElem?_eq_getElem hplen]
            rfl
          have htrue : liveEntry c a.els[pos] = true := by
            unfold liveEntry
            rw [← hgetel, if_neg hdead]
          rw [htrue]
          simp only [if_true, List.map_cons, hgetel]
      · rw [oaht_iter_pass_loop_succ, oaht_iter_done c a pos (by omega), if_pos rfl]
        rw [List.drop_eq_nil_of_le (by omega)]
        rfl

/-- Claim C9: starting from cursor 0 and repeatedly passing each returned
cursor back to `oaht_iter` until the done sentinel 0, a full pass over an
unmutated table yields exactly the live entries, in the physical bucket
order of the backing array; iterating a freshly created table yields no
entries. -/
theorem claim_C9_full_pass (a : oaht κ ν)
    (hlen : a.els.length = a.mask + 1) (hcap : a.mask + 1 < SIZE_T_MOD) :
    oaht_iter_pass c a = (a.els.filter (liveEntry c)).map (fun e => (e.key, e.value)) ∧
    (∀ m t0, oaht_create_presized c m = some t0 → oaht_iter_pass c t0 = []) := by
  constructor
  · unfold oaht_iter_pass
    rw [oaht_iter_pass_loop_eq c a hlen hcap (a.mask + 2) 0 (a.mask + 2) (by omega)
      (by omega), List.drop_zero]
  · intro m t0 hcrea
    rw [oaht_create_presized_eq] at hcrea
    have ht0 := Option.some.inj hcrea
    have hblankdead : liveEntry c (blankEntry c) = false := by
      unfold liveEntry
      have hbk : (blankEntry c).key = c.emptyKey := rfl
      rw [if_pos (Or.inl hbk)]
    rw [← ht0]
    unfold oaht_iter_pass
    rw [oaht_iter_pass_loop_eq c (oaht.mk 0 0 7 (List.replicate 8 (blankEntry c)))
      (by simp) (by norm_num [SIZE_T_MOD]) 9 0 9 rfl (by omega), List.drop_zero]
    simp only [List.replicate, hblankdead, List.filter_cons, Bool.false_eq_true, if_false,
      List.filter_nil, List.map_nil]

/-- Witness for C9 at a concrete table. -/
theorem claim_C9_witness :
    oaht_iter_pass intCfg tFull =
      (tFull.els.filter (liveEntry intCfg)).map (fun e => (e.key, e.value)) :=
  (claim_C9_full_pass intCfg tFull rfl (by decide)).1

/-- Claim C10: the read operations `contains`, `get`, `len` and `iter`
never modify the table: translating their bodies statement by statement
(every statement is a read), the table memory after each call equals the
table memory before it, and the caller's handle stays valid — no
reallocation occurs. -/
theorem claim_C10_reads_pure (a : oaht κ ν) (key : κ) (d : ν) (pos : Nat) :
    (oaht_contains_state c a key).2 = a ∧
    (oaht_get_state c a key d).2 = a ∧
    (oaht_len_state a).2 = a ∧
    (oaht_iter_state c a pos).2 = a :=
  ⟨rfl, rfl, rfl, rfl⟩

/-- Witness for C8 at a concrete table and key. -/
theorem claim_C8_witness :
    tFullDel.fill = tFull.fill ∧ tFullDel.mask = tFull.mask ∧
    tFullDel.els.length = tFull.els.length ∧
    ((∃ i, i < tFull.els.length ∧ keyAt intCfg tFull i = 3 ∧
        tFullDel.els = tFull.els.set i
          { tFull.els.getD i (blankEntry intCfg) with key := intCfg.deletedKey } ∧
        (∀ j, j ≠ i → tFullDel.els.getD j (blankEntry intCfg) =
          tFull.els.getD j (blankEntry intCfg)) ∧
        tFullDel.used + 1 = tFull.used) ∨
      ((∀ i, i < tFull.els.length → keyAt intCfg tFull i ≠ 3) ∧ tFullDel = tFull)) :=
  claim_C8_delete_frame intCfg tFull tFullDel 3 (by decide)
    ⟨rfl, ⟨3, by omega, rfl⟩, by decide, by decide⟩ (by decide) (by decide) (by decide)

/-- Claim C1 (code bug): `oaht_create_presized` does not return the
smallest power of two that is at least `min_size`: the grow loop doubles
`min_size` instead of `size`, so the returned capacity is stuck at
`OAHT_MIN_CAPACITY = 8` for every request (here 9 and 50000, whose
smallest admissible powers of two are 16 and 65536), and the capacity
overflow OOM check can never fire because `size` never changes. -/
theorem claim_C1_capacity_stuck :
    ((oaht_create_presized intCfg 9).map (fun a => a.mask + 1) = some 8) ∧
    ((oaht_create_presized intCfg 50000).map (fun a => a.mask + 1) = some 8) ∧
    8 < 9 :=
  ⟨rfl, rfl, by omega⟩

/-- Claim C2 (code bug): the table reached by inserting the eight keys
1..8 into a fresh table has no EMPTY slot at all (capacity never grew
beyond 8), so the reachable-table invariant fails, and the lookup
primitive indeed fails to terminate on that table for the absent key 9. -/
theorem claim_C2_no_empty_slot :
    ((oaht_create intCfg).bind (fun t0 => applyOps intCfg t0 opsEight) = some tFull) ∧
    (∀ i, i < tFull.els.length → keyAt intCfg tFull i ≠ intCfg.emptyKey) ∧
    tFull.used ≤ tFull.fill ∧ tFull.fill ≤ tFull.mask + 1 ∧
    oaht_lookup_helper intCfg tFull 9 9 = none :=
  ⟨rfl, by decide, by decide, by decide, rfl⟩

/-- Claim C3 (code bug): after the mutation that inserts the eighth key,
the table violates `fillCount * 3 < capacity * 2` even though a resize
just occurred during that mutation — the resize failed to bring the load
factor back under 2/3 because the new capacity is again 8. -/
theorem claim_C3_load_factor_violated :
    ((oaht_create intCfg).bind (fun t0 => applyOps intCfg t0 opsEight) = some tFull) ∧
    ¬ (tFull.fill * 3 < (tFull.mask + 1) * 2) :=
  ⟨rfl, by decide⟩

/-- Claim C6 (code bug): an insertion-triggered resize whose source table
(reached by inserting keys 1..7, deleting key 3 and inserting key 8) has
no EMPTY slot: `get` of the absent key 11 never returns on the table
passed to `oaht_resize`, yet returns the default on the table the resize
produces, so the get results before and after the resize are not
identical.  The counter part of the claim does hold: the new table's
`used` and `fill` both equal the old table's `used`. -/
theorem claim_C6_resize_get_disagree :
    ((oaht_create intCfg).bind (fun t0 => applyOps intCfg t0 opsSevenDel) = some tSevenDel) ∧
    oaht_set intCfg tSevenDel 8 108 = oaht_resize intCfg tBeforeResize 28 ∧
    oaht_resize intCfg tBeforeResize 28 = some tAfterResize ∧
    oaht_get intCfg tBeforeResize 11 0 = none ∧
    oaht_get intCfg tAfterResize 11 0 = some 0 ∧
    tAfterResize.used = tBeforeResize.used ∧
    tAfterResize.fill = tBeforeResize.used :=
  ⟨rfl, rfl, rfl, rfl, rfl, rfl, rfl⟩

/-- Claim C7 (code bug): deleting key 3 from the reachable full table
(keys 1..8 inserted from a fresh table) leaves a table with no EMPTY
slot; `get` of the deleted key then fails to terminate instead of
returning the default, and `contains` fails to terminate instead of
returning false. -/
theorem claim_C7_delete_get_diverges :
    ((oaht_create intCfg).bind
      (fun t0 => applyOps intCfg t0 (opsEight ++ [.delOp 3])) = some tFullDel) ∧
    oaht_get intCfg tFullDel 3 999 = none ∧
    oaht_contains intCfg tFullDel 3 = none :=
  ⟨rfl, rfl, rfl⟩
